import Mathlib

/-!
Verification development for the gitsync repository: a file-synchronization
bridge between a local document vault and a remote GitHub repository.

The definitions below are a shallow embedding of the TypeScript sources
`src/sync-service.ts`, `src/github-api.ts` and `src/types.ts`.  Strings are
modelled as `List Char`, byte sequences as `List Nat` (each element below
256), and every remote or filesystem interaction is threaded through an
explicit environment record describing the outcome of each call, so that
the control flow of the source functions can be reproduced faithfully as
pure Lean functions.
-/

namespace GitSync

/- ### JS string primitives used by the source -/

/-- Model of the JavaScript `String.prototype.replace` with a string pattern:
it replaces only the first (leftmost) occurrence of `pat` by `rep`; if `pat`
does not occur, the string is returned unchanged.  (With an empty pattern,
JS inserts `rep` at the front, which the first branch also reproduces.) -/
def replaceFirst (pat rep : List Char) (l : List Char) : List Char :=
  if pat.isPrefixOf l then rep ++ l.drop pat.length
  else
    match l with
    | [] => []
    | c :: rest => c :: replaceFirst pat rep rest

/-- `occursAtB l pat i` holds when `pat` occurs in `l` starting at index `i`. -/
def occursAtB (l pat : List Char) (i : Nat) : Bool :=
  decide (i + pat.length ≤ l.length) && ((l.drop i).take pat.length == pat)

/-- Propositional version of `occursAtB`. -/
def OccursAt (l pat : List Char) (i : Nat) : Prop :=
  i + pat.length ≤ l.length ∧ (l.drop i).take pat.length = pat

instance (l pat : List Char) (i : Nat) : Decidable (OccursAt l pat i) := by
  unfold OccursAt; infer_instance

/-- Number of (possibly overlapping) occurrences of `pat` in `l`. -/
def countOcc (l pat : List Char) : Nat :=
  ((Finset.range (l.length + 1)).filter (fun i => occursAtB l pat i = true)).card

/-- Substring test: does `pat` occur anywhere in `l`? -/
def containsSub (l pat : List Char) : Bool :=
  (List.range (l.length + 1)).any (fun i => occursAtB l pat i)

/- ### base64, modelling the platform `btoa` and `atob` builtins -/

/-- The base64 alphabet in index order. -/
def b64Alphabet : List Char :=
  "ABCDEFGHIJKLMNOPQRSTUVWXYZabcdefghijklmnopqrstuvwxyz0123456789+/".toList

/-- Character for a 6-bit value (as produced by `btoa`). -/
def b64Char (n : Nat) : Char := b64Alphabet.getD n 'A'

/-- Index of a base64 character; 64 when the character is not in the alphabet. -/
def b64Index (c : Char) : Nat := b64Alphabet.findIdx (fun d => d == c)

/-- Validity of one base64 character. -/
def b64Valid (c : Char) : Bool := b64Index c < 64

/-- Model of `btoa` applied to a byte string (each byte one character):
standard base64 encoding, three bytes to four characters, with `=` padding. -/
def btoaBytes : List Nat → List Char
  | [] => []
  | [b1] => [b64Char (b1 / 4), b64Char (b1 % 4 * 16), '=', '=']
  | [b1, b2] =>
      [b64Char (b1 / 4), b64Char (b1 % 4 * 16 + b2 / 16), b64Char (b2 % 16 * 4), '=']
  | b1 :: b2 :: b3 :: rest =>
      b64Char (b1 / 4) :: b64Char (b1 % 4 * 16 + b2 / 16) ::
      b64Char (b2 % 16 * 4 + b3 / 64) :: b64Char (b3 % 64) :: btoaBytes rest

/-- Model of `atob` returning the decoded bytes, or `none` when the input is
not valid base64 (the builtin throws in that case).  Padding characters are
accepted only at the end of the input. -/
def atobBytes : List Char → Option (List Nat)
  | [] => some []
  | c1 :: c2 :: c3 :: c4 :: rest =>
      if !(b64Valid c1 && b64Valid c2) then none
      else if c3 = '=' then
        if c4 = '=' && rest.isEmpty then
          some [b64Index c1 * 4 + b64Index c2 / 16]
        else none
      else if !(b64Valid c3) then none
      else if c4 = '=' then
        if rest.isEmpty then
          some [b64Index c1 * 4 + b64Index c2 / 16,
                b64Index c2 % 16 * 16 + b64Index c3 / 4]
        else none
      else if !(b64Valid c4) then none
      else
        match atobBytes rest with
        | some bs =>
            some ((b64Index c1 * 4 + b64Index c2 / 16) ::
                  (b64Index c2 % 16 * 16 + b64Index c3 / 4) ::
                  (b64Index c3 % 4 * 64 + b64Index c4) :: bs)
        | none => none
  | _ => none

/- ### Data model (`src/types.ts` and the engine state of `SyncService`) -/

/-- A vault file (`TFile`): its vault path, basename and extension. -/
structure VFile where
  path : List Char
  name : List Char
  extension : List Char
deriving DecidableEq

/-- A remote file record (`GitHubFile` restricted to blobs). -/
structure RFile where
  path : List Char
  sha : List Char
deriving DecidableEq

/-- The slice of `GitSyncSettings` the engine consults, together with
`app.vault.configDir` (the host configuration directory used to resolve the
configDir placeholder in exclusion paths). -/
structure Settings where
  excludedFolders : List (List Char)
  excludedFiles : List (List Char)
  commitMessage : List Char
  configDir : List Char

/-- Engine state of a `SyncService` instance: `configured` models
`this.api !== null`, `isSyncing` is the busy flag. -/
structure EngineState where
  configured : Bool
  isSyncing : Bool
deriving DecidableEq

/-- `SyncResult` from `src/types.ts`. -/
structure SyncResult where
  success : Bool
  message : List Char
  filesUploaded : Nat
  filesDownloaded : Nat
  filesDeleted : Nat
deriving DecidableEq

/-- Observable I/O performed by one engine operation: how many times it
called `ensureRepository`, `getAllFiles` and `batchUpload`, the paths handed
to `batchUpload`, and the remote paths written locally. -/
structure OpLog where
  ensureRepoCalls : Nat
  listCalls : Nat
  batchCalls : Nat
  uploadedPaths : List (List Char)
  downloadedPaths : List (List Char)
deriving DecidableEq

/-- The empty I/O log. -/
def emptyLog : OpLog := ⟨0, 0, 0, [], []⟩

/-- Environment for one engine operation: the vault contents and the outcome
of each remote or filesystem call the operation may issue.  `listRemote`
models `api.getAllFiles()` (which can throw, carrying a message);
`remoteContent` models `api.getFileContent` (null on any failure);
`batchOk` is the boolean outcome of `api.batchUpload`. -/
structure Env where
  ensureRepo : Bool
  allFiles : List VFile
  readBinary : VFile → List Nat
  readText : VFile → List Char
  listRemote : Except (List Char) (List RFile)
  remoteContent : List Char → Option (List Char)
  batchOk : Bool

/- ### Tokens and content encoding (`sync-service.ts` lines 89-161) -/

/-- The literal date token of the commit-message template. -/
def dateTok : List Char := "\x7b\x7bdate\x7d\x7d".toList

/-- The literal configDir placeholder of exclusion paths. -/
def configDirTok : List Char := "\x7b\x7bconfigDir\x7d\x7d".toList

/-- `resolveConfigDir`: replace the configDir placeholder (JS `replace`,
first occurrence only). -/
def resolveConfigDir (s : Settings) (p : List Char) : List Char :=
  replaceFirst configDirTok s.configDir p

/-- `getCommitMessage`: substitute the date token by the formatted current
timestamp.  The timestamp string (`toISOString` with the T replaced by a
space and fractional seconds removed) is passed as the `dateStr` argument. -/
def getCommitMessage (s : Settings) (dateStr : List Char) : List Char :=
  replaceFirst dateTok dateStr s.commitMessage

/-- The fixed binary extension allow-list of `getFileContent`. -/
def binaryExtensions : List (List Char) :=
  [".png", ".jpg", ".jpeg", ".gif", ".pdf",
   ".mp3", ".mp4", ".webp", ".svg", ".ico"].map String.toList

/-- Extension-based binary classification:
`binaryExtensions.some(ext => file.extension.toLowerCase() === ext.slice(1))`. -/
def isBinaryFile (f : VFile) : Bool :=
  binaryExtensions.any (fun ext => (f.extension.map Char.toLower) == ext.drop 1)

/-- The binary wrapper produced by `getFileContent` for a binary file:
marker prefix, base64 payload, marker suffix. -/
def wrapBinary (bytes : List Nat) : List Char :=
  "[BINARY:".toList ++ btoaBytes bytes ++ "]".toList

/-- `getFileContent`: binary files are read as raw bytes and wrapped,
text files are read as text. -/
def getFileContent (env : Env) (f : VFile) : List Char :=
  if isBinaryFile f then wrapBinary (env.readBinary f) else env.readText f

/-- What `writeFileContent` does with the given content: write bytes through
the binary path, write the content verbatim as text, or throw because the
wrapper payload is not valid base64 (`atob` raises). -/
inductive WriteAction where
  | binary (bytes : List Nat)
  | binaryInvalid
  | text (content : List Char)
deriving DecidableEq

/-- `writeFileContent`: content starting with the marker prefix and ending
with the marker suffix is sliced (`slice(8, -1)`), base64-decoded and written
through the binary path; everything else is written verbatim as text.  The
target path takes no part in the classification. -/
def writeFileContent (_path : List Char) (content : List Char) : WriteAction :=
  if "[BINARY:".toList.isPrefixOf content && "]".toList.isSuffixOf content then
    match atobBytes ((content.drop 8).dropLast) with
    | some bytes => .binary bytes
    | none => .binaryInvalid
  else .text content

/- ### Local file enumeration and exclusion (`getVaultFiles`, lines 63-84) -/

/-- Folder-prefix exclusion: the path starts with some resolved excluded
folder. -/
def excludedByFolder (s : Settings) (path : List Char) : Bool :=
  s.excludedFolders.any (fun folder => (resolveConfigDir s folder).isPrefixOf path)

/-- Filename rule of `getVaultFiles`: exact name match or path suffix match
against some excluded-file pattern. -/
def excludedByFile (s : Settings) (name path : List Char) : Bool :=
  s.excludedFiles.any (fun e => name == e || e.isSuffixOf path)

/-- Suffix-only filename rule, as applied by `pull` to remote paths. -/
def excludedByFileSuffix (s : Settings) (path : List Char) : Bool :=
  s.excludedFiles.any (fun e => e.isSuffixOf path)

/-- The filter body of `getVaultFiles`: excluded folders are checked first,
then excluded files; a file surviving both checks is kept. -/
def keepFile (s : Settings) (f : VFile) : Bool :=
  if excludedByFolder s f.path then false
  else if excludedByFile s f.name f.path then false
  else true

/-- `getVaultFiles`: all vault files surviving the exclusion rules. -/
def getVaultFiles (s : Settings) (allFiles : List VFile) : List VFile :=
  allFiles.filter (keepFile s)

/- ### The engine operations (`push`, `pull`, `sync`) -/

/-- A failure `SyncResult` with zero counters, as built at every catch or
guard site of the engine. -/
def mkFailure (msg : List Char) : SyncResult := ⟨false, msg, 0, 0, 0⟩

/-- Decimal rendering of a counter for interpolated notice messages. -/
def natStr (n : Nat) : List Char := (Nat.repr n).toList

/-- The file list push and sync prepare for `batchUpload`: every eligible
vault file paired with its transport content. -/
def filesToUpload (s : Settings) (env : Env) : List (List Char × List Char) :=
  (getVaultFiles s env.allFiles).map (fun f => (f.path, getFileContent env f))

/-- Body of `push` after the guards (lines 177-222): ensure the repository,
enumerate and read eligible files, succeed trivially on an empty set, else
batch-upload.  A thrown error is caught and converted to a failure result;
the returned log records the I/O that happened. -/
def pushBody (s : Settings) (env : Env) : SyncResult × OpLog :=
  if env.ensureRepo = false then
    (mkFailure "Could not access or create repository".toList, ⟨1, 0, 0, [], []⟩)
  else if (filesToUpload s env).length = 0 then
    (⟨true, "No files to push".toList, 0, 0, 0⟩, ⟨1, 0, 0, [], []⟩)
  else if env.batchOk then
    (⟨true, "Successfully pushed ".toList ++ natStr (filesToUpload s env).length ++
        " files".toList,
      (filesToUpload s env).length, 0, 0⟩,
     ⟨1, 0, 1, (filesToUpload s env).map (fun fc => fc.1), []⟩)
  else
    (mkFailure "Failed to push files to GitHub".toList,
     ⟨1, 0, 1, (filesToUpload s env).map (fun fc => fc.1), []⟩)

/-- `push` (lines 166-226): configuration guard, busy guard, body inside
try/finally that always clears the busy flag. -/
def push (st : EngineState) (s : Settings) (env : Env) :
    SyncResult × EngineState × OpLog :=
  if st.configured = false then
    (mkFailure "GitHub not configured".toList, st, emptyLog)
  else if st.isSyncing then
    (mkFailure "Sync already in progress".toList, st, emptyLog)
  else
    ((pushBody s env).1, { st with isSyncing := false }, (pushBody s env).2)

/-- The per-file loop of `pull` (lines 249-274): skip excluded paths, fetch
content, write and count when content is retrievable.  Returns the list of
paths written locally, in order. -/
def pullLoop (s : Settings) (env : Env) : List RFile → List (List Char)
  | [] => []
  | rf :: rest =>
      if excludedByFolder s rf.path || excludedByFileSuffix s rf.path then
        pullLoop s env rest
      else
        match env.remoteContent rf.path with
        | some _ => rf.path :: pullLoop s env rest
        | none => pullLoop s env rest

/-- Body of `pull` after the guards (lines 242-287). -/
def pullBody (s : Settings) (env : Env) : SyncResult × OpLog :=
  match env.listRemote with
  | .error msg => (mkFailure msg, ⟨0, 1, 0, [], []⟩)
  | .ok remoteFiles =>
      (⟨true, "Successfully pulled ".toList ++
          natStr (pullLoop s env remoteFiles).length ++ " files".toList,
        0, (pullLoop s env remoteFiles).length, 0⟩,
       ⟨0, 1, 0, [], pullLoop s env remoteFiles⟩)

/-- `pull` (lines 231-291). -/
def pull (st : EngineState) (s : Settings) (env : Env) :
    SyncResult × EngineState × OpLog :=
  if st.configured = false then
    (mkFailure "GitHub not configured".toList, st, emptyLog)
  else if st.isSyncing then
    (mkFailure "Sync already in progress".toList, st, emptyLog)
  else
    ((pullBody s env).1, { st with isSyncing := false }, (pullBody s env).2)

/-- Deduplication keeping the first occurrence, as performed by inserting
the remote files into a `Map` and iterating over its keys. -/
def dedupFirst : List (List Char) → List (List Char)
  | [] => []
  | p :: rest => p :: (dedupFirst rest).filter (fun q => q ≠ p)

/-- The download loop of `sync` (lines 354-373): for each remote path, skip
paths under an excluded folder (the only exclusion check this loop makes),
skip paths present locally, else fetch and write. -/
def syncLoop (s : Settings) (env : Env) (vaultPaths : List (List Char)) :
    List (List Char) → List (List Char)
  | [] => []
  | p :: rest =>
      if excludedByFolder s p then syncLoop s env vaultPaths rest
      else if vaultPaths.contains p then syncLoop s env vaultPaths rest
      else
        match env.remoteContent p with
        | some _ => p :: syncLoop s env vaultPaths rest
        | none => syncLoop s env vaultPaths rest

/-- The download set of one `sync` body run: the remote-only, not
folder-excluded paths whose content fetch succeeds. -/
def syncDownloaded (s : Settings) (env : Env) (remoteFiles : List RFile) :
    List (List Char) :=
  syncLoop s env ((getVaultFiles s env.allFiles).map (fun f => f.path))
    (dedupFirst (remoteFiles.map (fun rf => rf.path)))

/-- Body of `sync` after the guards (lines 307-386): ensure the repository,
list both sides, upload the entire eligible local set, then download
remote-only paths. -/
def syncBody (s : Settings) (env : Env) : SyncResult × OpLog :=
  if env.ensureRepo = false then
    (mkFailure "Could not access or create repository".toList, ⟨1, 0, 0, [], []⟩)
  else
    match env.listRemote with
    | .error msg => (mkFailure msg, ⟨1, 1, 0, [], []⟩)
    | .ok remoteFiles =>
        if 0 < (filesToUpload s env).length ∧ env.batchOk = false then
          (mkFailure "Failed to upload files".toList,
           ⟨1, 1, 1, (filesToUpload s env).map (fun fc => fc.1), []⟩)
        else
          (⟨true,
            "Sync complete: ".toList ++ natStr (filesToUpload s env).length ++
              " uploaded, ".toList ++ natStr (syncDownloaded s env remoteFiles).length ++
              " downloaded".toList,
            (filesToUpload s env).length, (syncDownloaded s env remoteFiles).length, 0⟩,
           ⟨1, 1, if 0 < (filesToUpload s env).length then 1 else 0,
            (filesToUpload s env).map (fun fc => fc.1), syncDownloaded s env remoteFiles⟩)

/-- `sync` (lines 296-390). -/
def sync (st : EngineState) (s : Settings) (env : Env) :
    SyncResult × EngineState × OpLog :=
  if st.configured = false then
    (mkFailure "GitHub not configured".toList, st, emptyLog)
  else if st.isSyncing then
    (mkFailure "Sync already in progress".toList, st, emptyLog)
  else
    ((syncBody s env).1, { st with isSyncing := false }, (syncBody s env).2)

/- ### Remote repository client (`src/github-api.ts`) -/

/-- Remote-side situation seen by the branch-head lookup
(`GET git/refs/heads/{branch}`): `branchHead` is the ground truth (`none`
when the branch has no history yet, in which case the request answers 404),
and `reqFail` records an HTTP or network failure unrelated to absence
(auth error, connectivity, 5xx). -/
structure RefsEnv where
  branchHead : Option (List Char)
  reqFail : Bool

/-- Outcome of the refs request itself: it throws (status 404) when the
branch has no history, and throws on any other failure too. -/
def refsLookup (e : RefsEnv) : Except Unit (List Char) :=
  if e.reqFail then .error ()
  else
    match e.branchHead with
    | some sha => .ok sha
    | none => .error ()

/-- `getLatestCommitSha` (lines 91-98): the head commit sha, with every
thrown error caught and converted to the null sentinel. -/
def getLatestCommitSha (e : RefsEnv) : Option (List Char) :=
  (refsLookup e).toOption

/-- An entry of the recursive tree listing. -/
structure TreeNode where
  path : List Char
  sha : List Char
  type : List Char

/-- Environment for `getAllFiles`: refs lookup plus the outcomes of the
commit lookup (`getTreeSha`, which throws on failure) and of the recursive
tree listing request. -/
structure TreeEnv where
  refs : RefsEnv
  treeShaOf : List Char → Except Unit (List Char)
  treeListing : List Char → Except Unit (List TreeNode)

/-- `getAllFiles` (lines 111-127): an absent head commit yields the empty
list as a normal outcome; otherwise resolve the root tree, list it
recursively, keep the blobs. -/
def getAllFiles (e : TreeEnv) : Except Unit (List RFile) :=
  match getLatestCommitSha e.refs with
  | none => .ok []
  | some commitSha =>
      match e.treeShaOf commitSha with
      | .error u => .error u
      | .ok treeSha =>
          match e.treeListing treeSha with
          | .error u => .error u
          | .ok nodes =>
              .ok (((nodes.filter (fun n => n.type == "blob".toList)).map
                (fun n => RFile.mk n.path n.sha)))

/-- A tree entry handed to `createTree`: either inline content (small files)
or a reference to a previously created blob. -/
inductive TreeEntryContent where
  | inline (content : List Char)
  | blob (sha : List Char)
deriving DecidableEq

/-- `GitHubTreeItem` as built by `batchUpload`: path, the fixed regular-file
mode, and inline content or a blob reference. -/
structure GitHubTreeItem where
  path : List Char
  mode : List Char
  entry : TreeEntryContent
deriving DecidableEq

/-- Environment for `batchUpload`: the refs lookup, the commit lookup, the
blob-creation outcome per content, the tree/commit creation outcomes and the
boolean outcome of the branch-ref update. -/
structure BatchEnv where
  refs : RefsEnv
  treeShaOf : List Char → Except Unit (List Char)
  blobShaOf : List Char → Except Unit (List Char)
  createTree : Option (List Char) → List GitHubTreeItem → Except Unit (List Char)
  createCommit : List Char → List Char → Option (List Char) → Except Unit (List Char)
  updateRefOk : Bool

/-- The per-file loop of `batchUpload` (lines 272-296): contents below the
100000-character inline threshold become inline tree entries; larger
contents first create a blob (a write call that may throw, aborting the
loop) and reference it by sha.  The second component counts the blob
creation calls actually issued. -/
def mkTreeItems (env : BatchEnv) :
    List (List Char × List Char) → Except Unit (List GitHubTreeItem) × Nat
  | [] => (.ok [], 0)
  | (p, c) :: rest =>
      if c.length < 100000 then
        ((mkTreeItems env rest).1.map
          (fun items => GitHubTreeItem.mk p "100644".toList (.inline c) :: items),
         (mkTreeItems env rest).2)
      else
        match env.blobShaOf c with
        | .error _ => (.error (), 1)
        | .ok sha =>
            ((mkTreeItems env rest).1.map
              (fun items => GitHubTreeItem.mk p "100644".toList (.blob sha) :: items),
             (mkTreeItems env rest).2 + 1)

/-- I/O performed by one `batchUpload` call: blob creations, tree creations,
commit creations and branch-ref updates issued. -/
structure BatchLog where
  blobCalls : Nat
  treeCalls : Nat
  commitCalls : Nat
  refCalls : Nat
deriving DecidableEq

/-- `batchUpload` (lines 260-314): resolve the head commit (null tolerated)
and its base tree (a throw here is caught by the surrounding catch and
yields false), build the tree items, return true immediately when there are
none, else create tree, commit and update the ref.  Any thrown step makes
the whole call return false. -/
def batchUpload (env : BatchEnv) (files : List (List Char × List Char))
    (message : List Char) : Bool × BatchLog :=
  let commitSha := getLatestCommitSha env.refs
  let baseTree : Except Unit (Option (List Char)) :=
    match commitSha with
    | some sha =>
        match env.treeShaOf sha with
        | .error u => .error u
        | .ok t => .ok (some t)
    | none => .ok none
  match baseTree with
  | .error _ => (false, ⟨0, 0, 0, 0⟩)
  | .ok baseTreeSha =>
      let built := mkTreeItems env files
      match built.1 with
      | .error _ => (false, ⟨built.2, 0, 0, 0⟩)
      | .ok treeItems =>
          if treeItems.length = 0 then (true, ⟨built.2, 0, 0, 0⟩)
          else
            match env.createTree baseTreeSha treeItems with
            | .error _ => (false, ⟨built.2, 1, 0, 0⟩)
            | .ok newTreeSha =>
                match env.createCommit message newTreeSha commitSha with
                | .error _ => (false, ⟨built.2, 1, 1, 0⟩)
                | .ok _newCommitSha => (env.updateRefOk, ⟨built.2, 1, 1, 1⟩)

/-- Remote-side situation seen by the contents lookup of a single path:
`remoteSha` is the ground-truth content id (`none` when the path is absent,
in which case the request answers 404) and `reqFail` records any other HTTP
or network failure; `deleteOk` is the outcome of the DELETE request when one
is issued (false models a throw). -/
structure ContentsEnv where
  remoteSha : Option (List Char)
  reqFail : Bool
  deleteOk : Bool

/-- `getFileSha` (lines 147-154): the content id, with every thrown error
(genuine absence or any other failure) caught and converted to null. -/
def getFileSha (e : ContentsEnv) : Option (List Char) :=
  if e.reqFail then none
  else e.remoteSha

/-- `deleteFile` (lines 183-200): look up the content id; without one,
report success without issuing any DELETE request; with one, issue the
DELETE and report its outcome.  The second component counts DELETE requests
issued. -/
def deleteFile (e : ContentsEnv) : Bool × Nat :=
  match getFileSha e with
  | none => (true, 0)
  | some _sha => (e.deleteOk, 1)

/- ### Bridging lemmas for the string primitives -/

theorem isPrefixOf_iff : ∀ {p l : List Char}, p.isPrefixOf l = true ↔ ∃ t, l = p ++ t
  | [], l => by simp [List.isPrefixOf]
  | _ :: _, [] => by simp [List.isPrefixOf]
  | a :: as, b :: bs => by
      simp only [List.isPrefixOf, Bool.and_eq_true, beq_iff_eq]
      constructor
      · rintro ⟨rfl, h⟩
        obtain ⟨t, rfl⟩ := isPrefixOf_iff.mp h
        exact ⟨t, rfl⟩
      · rintro ⟨t, ht⟩
        cases ht
        exact ⟨rfl, isPrefixOf_iff.mpr ⟨t, rfl⟩⟩

theorem isSuffixOf_iff {p l : List Char} : p.isSuffixOf l = true ↔ ∃ t, l = t ++ p := by
  unfold List.isSuffixOf
  rw [isPrefixOf_iff]
  constructor
  · rintro ⟨t, ht⟩
    refine ⟨t.reverse, ?_⟩
    have h2 := congrArg List.reverse ht
    simpa [List.reverse_append] using h2
  · rintro ⟨t, rfl⟩
    exact ⟨t.reverse, by simp [List.reverse_append]⟩

/- ### base64 round trip -/

theorem b64_facts :
    ∀ n : Fin 64, b64Valid (b64Char n.val) = true ∧ b64Index (b64Char n.val) = n.val ∧
      b64Char n.val ≠ '=' := by decide

theorem b64Valid_b64Char {n : Nat} (h : n < 64) : b64Valid (b64Char n) = true :=
  (b64_facts ⟨n, h⟩).1

theorem b64Index_b64Char {n : Nat} (h : n < 64) : b64Index (b64Char n) = n :=
  (b64_facts ⟨n, h⟩).2.1

theorem b64Char_ne_pad {n : Nat} (h : n < 64) : b64Char n ≠ '=' :=
  (b64_facts ⟨n, h⟩).2.2

theorem atob_btoa : ∀ bs : List Nat, (∀ b ∈ bs, b < 256) →
    atobBytes (btoaBytes bs) = some bs
  | [], _ => rfl
  | [b1], h => by
      have hb1 : b1 < 256 := h b1 (by simp)
      have v1 := b64Valid_b64Char (show b1 / 4 < 64 by omega)
      have v2 := b64Valid_b64Char (show b1 % 4 * 16 < 64 by omega)
      have i1 := b64Index_b64Char (show b1 / 4 < 64 by omega)
      have i2 := b64Index_b64Char (show b1 % 4 * 16 < 64 by omega)
      simp [btoaBytes, atobBytes, v1, v2, i1, i2]
      omega
  | [b1, b2], h => by
      have hb1 : b1 < 256 := h b1 (by simp)
      have hb2 : b2 < 256 := h b2 (by simp)
      have v1 := b64Valid_b64Char (show b1 / 4 < 64 by omega)
      have v2 := b64Valid_b64Char (show b1 % 4 * 16 + b2 / 16 < 64 by omega)
      have v3 := b64Valid_b64Char (show b2 % 16 * 4 < 64 by omega)
      have i1 := b64Index_b64Char (show b1 / 4 < 64 by omega)
      have i2 := b64Index_b64Char (show b1 % 4 * 16 + b2 / 16 < 64 by omega)
      have i3 := b64Index_b64Char (show b2 % 16 * 4 < 64 by omega)
      have ne3 := b64Char_ne_pad (show b2 % 16 * 4 < 64 by omega)
      simp [btoaBytes, atobBytes, v1, v2, v3, i1, i2, i3, ne3]
      omega
  | b1 :: b2 :: b3 :: rest, h => by
      have hb1 : b1 < 256 := h b1 (by simp)
      have hb2 : b2 < 256 := h b2 (by simp)
      have hb3 : b3 < 256 := h b3 (by simp)
      have ih := atob_btoa rest (fun b hb => h b (by simp [hb]))
      have v1 := b64Valid_b64Char (show b1 / 4 < 64 by omega)
      have v2 := b64Valid_b64Char (show b1 % 4 * 16 + b2 / 16 < 64 by omega)
      have v3 := b64Valid_b64Char (show b2 % 16 * 4 + b3 / 64 < 64 by omega)
      have v4 := b64Valid_b64Char (show b3 % 64 < 64 by omega)
      have i1 := b64Index_b64Char (show b1 / 4 < 64 by omega)
      have i2 := b64Index_b64Char (show b1 % 4 * 16 + b2 / 16 < 64 by omega)
      have i3 := b64Index_b64Char (show b2 % 16 * 4 + b3 / 64 < 64 by omega)
      have i4 := b64Index_b64Char (show b3 % 64 < 64 by omega)
      have ne3 := b64Char_ne_pad (show b2 % 16 * 4 + b3 / 64 < 64 by omega)
      have ne4 := b64Char_ne_pad (show b3 % 64 < 64 by omega)
      simp [btoaBytes, atobBytes, v1, v2, v3, v4, i1, i2, i3, i4, ne3, ne4, ih]
      omega

/-- Decoding the wrapper written by the binary-encode path recovers the
original bytes, for every byte sequence. -/
theorem writeFileContent_wrapBinary (path : List Char) (bytes : List Nat)
    (h : ∀ b ∈ bytes, b < 256) :
    writeFileContent path (wrapBinary bytes) = .binary bytes := by
  have hpre : "[BINARY:".toList.isPrefixOf (wrapBinary bytes) = true :=
    isPrefixOf_iff.mpr ⟨btoaBytes bytes ++ "]".toList, by simp [wrapBinary]⟩
  have hsuf : "]".toList.isSuffixOf (wrapBinary bytes) = true :=
    isSuffixOf_iff.mpr ⟨"[BINARY:".toList ++ btoaBytes bytes, by simp [wrapBinary]⟩
  have hdrop : (wrapBinary bytes).drop 8 = btoaBytes bytes ++ "]".toList := by
    unfold wrapBinary
    rw [List.append_assoc, List.drop_left' (by decide : ("[BINARY:".toList).length = 8)]
  have hslice : ((wrapBinary bytes).drop 8).dropLast = btoaBytes bytes := by
    rw [hdrop]
    exact List.dropLast_concat
  unfold writeFileContent
  rw [hpre, hsuf]
  simp only [Bool.and_self, if_true]
  rw [hslice, atob_btoa bytes h]

/- ### Occurrence lemmas for the template substitution -/

theorem occursAtB_iff {l pat : List Char} {i : Nat} :
    occursAtB l pat i = true ↔ OccursAt l pat i := by
  unfold occursAtB OccursAt
  simp [Bool.and_eq_true, decide_eq_true_eq, beq_iff_eq]

theorem containsSub_iff {l pat : List Char} :
    containsSub l pat = true ↔ ∃ i, OccursAt l pat i := by
  unfold containsSub
  rw [List.any_eq_true]
  constructor
  · rintro ⟨i, _, hb⟩
    exact ⟨i, occursAtB_iff.mp hb⟩
  · rintro ⟨i, hi⟩
    refine ⟨i, List.mem_range.mpr ?_, occursAtB_iff.mpr hi⟩
    have := hi.1
    omega

theorem occursAt_cons_succ {c : Char} {l pat : List Char} {i : Nat} :
    OccursAt (c :: l) pat (i + 1) ↔ OccursAt l pat i := by
  unfold OccursAt
  simp only [List.drop_succ_cons, List.length_cons]
  constructor
  · rintro ⟨h1, h2⟩; exact ⟨by omega, h2⟩
  · rintro ⟨h1, h2⟩; exact ⟨by omega, h2⟩

theorem isPrefixOf_of_occursAt_zero {l pat : List Char} (h : OccursAt l pat 0) :
    pat.isPrefixOf l = true := by
  obtain ⟨h1, h2⟩ := h
  rw [List.drop_zero] at h2
  have hsplit := (List.take_append_drop pat.length l).symm
  rw [h2] at hsplit
  exact isPrefixOf_iff.mpr ⟨l.drop pat.length, hsplit⟩

theorem occursAt_zero_of_isPrefixOf {l pat : List Char} (h : pat.isPrefixOf l = true) :
    OccursAt l pat 0 := by
  obtain ⟨t, rfl⟩ := isPrefixOf_iff.mp h
  refine ⟨by simp, ?_⟩
  rw [List.drop_zero, List.take_left]

theorem occursAt_append_right {a b pat : List Char} {j : Nat}
    (h : OccursAt b pat j) : OccursAt (a ++ b) pat (a.length + j) := by
  induction a with
  | nil => simpa using h
  | cons c a ih =>
      have harith : (c :: a).length + j = (a.length + j) + 1 := by
        simp [List.length_cons]; omega
      rw [harith, List.cons_append]
      exact occursAt_cons_succ.mpr ih

theorem occursAt_of_append_right {a b pat : List Char} {j : Nat}
    (h : OccursAt (a ++ b) pat (a.length + j)) : OccursAt b pat j := by
  induction a with
  | nil => simpa using h
  | cons c a ih =>
      apply ih
      have harith : (c :: a).length + j = (a.length + j) + 1 := by
        simp [List.length_cons]; omega
      rw [harith, List.cons_append] at h
      exact occursAt_cons_succ.mp h

theorem occursAt_append_left {a b pat : List Char} {i : Nat}
    (h : OccursAt a pat i) : OccursAt (a ++ b) pat i := by
  obtain ⟨h1, h2⟩ := h
  refine ⟨by simp [List.length_append]; omega, ?_⟩
  rw [List.drop_append_of_le_length (by omega),
    List.take_append_of_le_length (by simp [List.length_drop]; omega), h2]

theorem occursAt_of_append_left {a b pat : List Char} {i : Nat}
    (h : OccursAt (a ++ b) pat i) (hle : i + pat.length ≤ a.length) :
    OccursAt a pat i := by
  obtain ⟨_, h2⟩ := h
  refine ⟨hle, ?_⟩
  rw [List.drop_append_of_le_length (by omega),
    List.take_append_of_le_length (by simp [List.length_drop]; omega)] at h2
  exact h2

theorem occursAt_disjoint_right {pat suf : List Char} (hpat : pat ≠ [])
    (mid : List Char) (hdisj : ∀ c ∈ mid, c ∉ pat) :
    ∀ i : Nat, OccursAt (mid ++ suf) pat i → mid.length ≤ i := by
  induction mid with
  | nil => intro i _; simp
  | cons m mid ih =>
      intro i hocc
      cases i with
      | zero =>
          exfalso
          obtain ⟨p0, pat', rfl⟩ : ∃ p0 pat', pat = p0 :: pat' := by
            cases pat with
            | nil => exact absurd rfl hpat
            | cons p0 pat' => exact ⟨p0, pat', rfl⟩
          obtain ⟨_, h2⟩ := hocc
          rw [List.drop_zero, List.cons_append, List.length_cons,
            List.take_succ_cons] at h2
          have hm : m = p0 := (List.cons_eq_cons.mp h2).1
          exact hdisj m (by simp) (by rw [hm]; simp)
      | succ i =>
          rw [List.cons_append] at hocc
          have := ih (fun c hc => hdisj c (by simp [hc])) i (occursAt_cons_succ.mp hocc)
          simp [List.length_cons]
          omega

theorem occursAt_zero_disjoint {mid suf : List Char} (hmid : mid ≠ [])
    (pat : List Char) (hdisj : ∀ c ∈ mid, c ∉ pat) :
    ∀ pre : List Char, OccursAt (pre ++ mid ++ suf) pat 0 → pat.length ≤ pre.length := by
  induction pat with
  | nil => intro pre _; simp
  | cons p0 pat' ih =>
      intro pre hocc
      cases pre with
      | nil =>
          exfalso
          obtain ⟨m, mid', rfl⟩ : ∃ m mid', mid = m :: mid' := by
            cases mid with
            | nil => exact absurd rfl hmid
            | cons m mid' => exact ⟨m, mid', rfl⟩
          obtain ⟨_, h2⟩ := hocc
          rw [List.drop_zero, List.nil_append, List.cons_append, List.length_cons,
            List.take_succ_cons] at h2
          have hm : m = p0 := (List.cons_eq_cons.mp h2).1
          exact hdisj m (by simp) (by rw [hm]; simp)
      | cons c pre' =>
          obtain ⟨h1, h2⟩ := hocc
          rw [List.drop_zero] at h2
          rw [List.cons_append, List.cons_append, List.length_cons,
            List.take_succ_cons] at h2
          obtain ⟨-, h2'⟩ := List.cons_eq_cons.mp h2
          have hocc' : OccursAt (pre' ++ mid ++ suf) pat' 0 := by
            refine ⟨?_, by rw [List.drop_zero]; exact h2'⟩
            have hlen := congrArg List.length h2'
            rw [List.length_take] at hlen
            simp only [List.length_append] at hlen ⊢
            omega
          have hih := ih (fun c hc hmem => hdisj c hc (List.mem_cons_of_mem _ hmem))
            pre' hocc'
          simp [List.length_cons]
          omega

theorem occursAt_span {pat mid : List Char} (hpat : pat ≠ []) (hmid : mid ≠ [])
    (hdisj : ∀ c ∈ mid, c ∉ pat) :
    ∀ (pre suf : List Char) (i : Nat), OccursAt (pre ++ mid ++ suf) pat i →
      i + pat.length ≤ pre.length ∨ pre.length + mid.length ≤ i := by
  intro pre
  induction pre with
  | nil =>
      intro suf i hocc
      right
      simpa using occursAt_disjoint_right hpat mid hdisj i (by simpa using hocc)
  | cons c pre' ih =>
      intro suf i hocc
      cases i with
      | zero =>
          left
          simpa using occursAt_zero_disjoint hmid pat hdisj (c :: pre') hocc
      | succ i =>
          rw [List.cons_append, List.cons_append] at hocc
          rcases ih suf i (occursAt_cons_succ.mp hocc) with h | h
          · left; simp [List.length_cons]; omega
          · right; simp [List.length_cons]; omega

theorem one_lt_countOcc {l pat : List Char} {i j : Nat} (hi : OccursAt l pat i)
    (hj : OccursAt l pat j) (hij : i ≠ j) : 1 < countOcc l pat := by
  unfold countOcc
  apply Finset.one_lt_card.mpr
  have hi1 := hi.1
  have hj1 := hj.1
  exact ⟨i, Finset.mem_filter.mpr ⟨Finset.mem_range.mpr (by omega), occursAtB_iff.mpr hi⟩,
    j, Finset.mem_filter.mpr ⟨Finset.mem_range.mpr (by omega), occursAtB_iff.mpr hj⟩, hij⟩

theorem exists_occursAt_of_countOcc_pos {l pat : List Char} (h : 0 < countOcc l pat) :
    ∃ i, OccursAt l pat i := by
  unfold countOcc at h
  obtain ⟨i, hi⟩ := Finset.card_pos.mp h
  exact ⟨i, occursAtB_iff.mp (Finset.mem_filter.mp hi).2⟩

theorem replaceFirst_split {pat rep : List Char} :
    ∀ l : List Char, (∃ i, OccursAt l pat i) →
      ∃ pre suf, l = pre ++ pat ++ suf ∧ replaceFirst pat rep l = pre ++ rep ++ suf := by
  intro l
  induction l with
  | nil =>
      rintro ⟨i, hi⟩
      have hpe : pat = [] := by
        have h0 := hi.1
        simp only [List.length_nil] at h0
        exact List.length_eq_zero.mp (by omega)
      refine ⟨[], [], by simp [hpe], ?_⟩
      unfold replaceFirst
      rw [if_pos (by rw [hpe]; rfl)]
      simp [hpe]
  | cons c rest ih =>
      rintro ⟨i, hi⟩
      by_cases hp : pat.isPrefixOf (c :: rest) = true
      · obtain ⟨t, ht⟩ := isPrefixOf_iff.mp hp
        refine ⟨[], t, by simpa using ht, ?_⟩
        unfold replaceFirst
        rw [if_pos hp, ht, List.drop_left]
        simp
      · have hi' : ∃ i', OccursAt rest pat i' := by
          cases i with
          | zero => exact absurd (isPrefixOf_of_occursAt_zero hi) (by simpa using hp)
          | succ i' => exact ⟨i', occursAt_cons_succ.mp hi⟩
        obtain ⟨pre', suf, heq, hrw⟩ := ih hi'
        refine ⟨c :: pre', suf, by simp [heq], ?_⟩
        conv_lhs => unfold replaceFirst
        rw [if_neg (by simpa using hp)]
        simp [hrw]

/- ### Claim theorems -/

/-- C2: on one engine instance, at most one of push, pull, sync is in the
Syncing state at any time.  A call made while the engine is Syncing returns
the busy failure with the state untouched and an empty I/O log, and every
operation started from Idle — whatever its body does, including the caught
throw paths — returns with the state back at Idle. -/
theorem sync_mutual_exclusion (st : EngineState) (s : Settings) (env : Env) :
    (st.configured = true → st.isSyncing = true →
      push st s env = (mkFailure "Sync already in progress".toList, st, emptyLog) ∧
      pull st s env = (mkFailure "Sync already in progress".toList, st, emptyLog) ∧
      sync st s env = (mkFailure "Sync already in progress".toList, st, emptyLog)) ∧
    (st.isSyncing = false →
      (push st s env).2.1.isSyncing = false ∧
      (pull st s env).2.1.isSyncing = false ∧
      (sync st s env).2.1.isSyncing = false) := by
  constructor
  · intro h1 h2
    refine ⟨?_, ?_, ?_⟩ <;> simp [push, pull, sync, h1, h2]
  · intro h2
    by_cases h1 : st.configured = false <;>
      refine ⟨?_, ?_, ?_⟩ <;> simp [push, pull, sync, h1, h2]

theorem sync_mutual_exclusion_witness :
    ((⟨true, true⟩ : EngineState).configured = true ∧
      (⟨true, true⟩ : EngineState).isSyncing = true) ∧
    push ⟨true, true⟩ ⟨[], [], [], []⟩
        ⟨true, [], fun _ => [], fun _ => [], .ok [], fun _ => none, true⟩ =
      (mkFailure "Sync already in progress".toList, ⟨true, true⟩, emptyLog) :=
  ⟨⟨rfl, rfl⟩,
    ((sync_mutual_exclusion ⟨true, true⟩ ⟨[], [], [], []⟩
      ⟨true, [], fun _ => [], fun _ => [], .ok [], fun _ => none, true⟩).1 rfl rfl).1⟩

/-- C3: for every byte sequence (empty ones and byte values with no text
meaning included), encoding through the binary wrapper path
(`getFileContent` on a binary-classified file, which produces the marker
prefix, the base64 payload and the marker suffix) and then decoding through
the wrapper-decode write-back path of `writeFileContent` yields
byte-identical content. -/
theorem binary_wrapper_roundtrip (env : Env) (f : VFile) (path : List Char)
    (hext : isBinaryFile f = true) (hbytes : ∀ b ∈ env.readBinary f, b < 256) :
    getFileContent env f = wrapBinary (env.readBinary f) ∧
    writeFileContent path (getFileContent env f) = .binary (env.readBinary f) := by
  have henc : getFileContent env f = wrapBinary (env.readBinary f) := by
    unfold getFileContent
    rw [hext]
    simp
  refine ⟨henc, ?_⟩
  rw [henc]
  exact writeFileContent_wrapBinary path (env.readBinary f) hbytes

theorem binary_wrapper_roundtrip_witness :
    (isBinaryFile ⟨"img.png".toList, "img.png".toList, "png".toList⟩ = true ∧
      ∀ b ∈ [0, 255, 10, 128], (b : Nat) < 256) ∧
    writeFileContent "img.png".toList
        (getFileContent
          ⟨true, [], fun _ => [0, 255, 10, 128], fun _ => [], .ok [], fun _ => none, true⟩
          ⟨"img.png".toList, "img.png".toList, "png".toList⟩) =
      .binary [0, 255, 10, 128] :=
  ⟨⟨by decide, by decide⟩,
    (binary_wrapper_roundtrip
      ⟨true, [], fun _ => [0, 255, 10, 128], fun _ => [], .ok [], fun _ => none, true⟩
      ⟨"img.png".toList, "img.png".toList, "png".toList⟩ "img.png".toList
      (by decide) (by decide)).2⟩

/-- C8: every `SyncResult` returned by push, pull or sync reports
`filesDeleted = 0`, and every failure result reports zero for all three
counters. -/
theorem counters_invariant (st : EngineState) (s : Settings) (env : Env) :
    ((push st s env).1.filesDeleted = 0 ∧
      ((push st s env).1.success = false →
        (push st s env).1.filesUploaded = 0 ∧ (push st s env).1.filesDownloaded = 0)) ∧
    ((pull st s env).1.filesDeleted = 0 ∧
      ((pull st s env).1.success = false →
        (pull st s env).1.filesUploaded = 0 ∧ (pull st s env).1.filesDownloaded = 0)) ∧
    ((sync st s env).1.filesDeleted = 0 ∧
      ((sync st s env).1.success = false →
        (sync st s env).1.filesUploaded = 0 ∧ (sync st s env).1.filesDownloaded = 0)) := by
  refine ⟨?_, ?_, ?_⟩ <;>
    · simp only [push, pull, sync, pushBody, pullBody, syncBody, mkFailure]
      repeat' split
      all_goals simp

theorem counters_invariant_witness :
    (push ⟨false, false⟩ ⟨[], [], [], []⟩
        ⟨true, [], fun _ => [], fun _ => [], .ok [], fun _ => none, true⟩).1.success =
      false ∧
    (push ⟨false, false⟩ ⟨[], [], [], []⟩
        ⟨true, [], fun _ => [], fun _ => [], .ok [], fun _ => none, true⟩).1.filesUploaded =
      0 :=
  ⟨rfl,
    ((counters_invariant ⟨false, false⟩ ⟨[], [], [], []⟩
      ⟨true, [], fun _ => [], fun _ => [], .ok [], fun _ => none, true⟩).1.2 rfl).1⟩

/-- C9: `deleteFile` issues a DELETE request only when the content-id lookup
returned an id; whenever `getFileSha` answers the not-found sentinel — which
it does on any HTTP or network failure of the lookup, not only on genuine
absence — `deleteFile` reports success without issuing any DELETE request. -/
theorem deleteFile_guarded (e : ContentsEnv) :
    (getFileSha e = none → deleteFile e = (true, 0)) ∧
    ((deleteFile e).2 ≠ 0 → ∃ sha, getFileSha e = some sha) ∧
    (e.reqFail = true → getFileSha e = none) := by
  refine ⟨?_, ?_, ?_⟩
  · intro h
    unfold deleteFile
    rw [h]
  · intro h
    unfold deleteFile at h
    cases hs : getFileSha e with
    | none => rw [hs] at h; simp at h
    | some sha => exact ⟨sha, rfl⟩
  · intro h
    unfold getFileSha
    rw [h]
    simp

theorem deleteFile_guarded_witness :
    ((⟨some "abc".toList, true, true⟩ : ContentsEnv).reqFail = true ∧
      getFileSha ⟨some "abc".toList, true, true⟩ = none) ∧
    deleteFile ⟨some "abc".toList, true, true⟩ = (true, 0) :=
  ⟨⟨rfl, by decide⟩,
    (deleteFile_guarded ⟨some "abc".toList, true, true⟩).1 (by decide)⟩

/-- C10: `writeFileContent` classifies content as binary solely from the
content string: the classification is independent of the target path, any
content carrying the marker prefix and suffix goes through the
base64-decode binary path, and everything else is written verbatim as
text. -/
theorem write_classification (p q content : List Char) :
    writeFileContent p content = writeFileContent q content ∧
    (("[BINARY:".toList.isPrefixOf content && "]".toList.isSuffixOf content) = true →
      writeFileContent p content =
        match atobBytes ((content.drop 8).dropLast) with
        | some bytes => .binary bytes
        | none => .binaryInvalid) ∧
    (("[BINARY:".toList.isPrefixOf content && "]".toList.isSuffixOf content) = false →
      writeFileContent p content = .text content) := by
  refine ⟨rfl, ?_, ?_⟩
  · intro h
    unfold writeFileContent
    rw [h]
    simp
  · intro h
    unfold writeFileContent
    rw [h]
    simp

theorem write_classification_witness :
    ("[BINARY:".toList.isPrefixOf "[BINARY:AQ==]".toList &&
        "]".toList.isSuffixOf "[BINARY:AQ==]".toList) = true ∧
    writeFileContent "note.md".toList "[BINARY:AQ==]".toList = .binary [1] := by
  refine ⟨by decide, ?_⟩
  rw [(write_classification "note.md".toList "img.png".toList
    "[BINARY:AQ==]".toList).2.1 (by decide)]
  decide

/-- C6, counterexample: the branch has history (a head commit exists), yet a
failing lookup request makes `getLatestCommitSha` return the none sentinel —
so the sentinel does not appear exactly when the branch has no history. -/
theorem getLatestCommitSha_not_exact :
    (⟨some "abc".toList, true⟩ : RefsEnv).branchHead ≠ none ∧
    getLatestCommitSha ⟨some "abc".toList, true⟩ = none :=
  ⟨by decide, rfl⟩

/-- C6, amended: when the lookup request does not fail for an unrelated
reason, `getLatestCommitSha` returns the branch head commit id exactly when
the branch has history and the none sentinel exactly when it has none; on
any other HTTP or network failure it also returns the sentinel.  The
sentinel is handled as a normal outcome: `getAllFiles` answers the empty
file list instead of an error. -/
theorem getLatestCommitSha_spec (e : RefsEnv) (te : TreeEnv) :
    (e.reqFail = false → getLatestCommitSha e = e.branchHead) ∧
    (e.reqFail = true → getLatestCommitSha e = none) ∧
    (getLatestCommitSha te.refs = none → getAllFiles te = .ok []) := by
  refine ⟨?_, ?_, ?_⟩
  · intro h
    unfold getLatestCommitSha refsLookup
    rw [h]
    cases e.branchHead <;> simp [Except.toOption]
  · intro h
    unfold getLatestCommitSha refsLookup
    rw [h]
    simp [Except.toOption]
  · intro h
    unfold getAllFiles
    rw [h]

theorem getLatestCommitSha_spec_witness :
    ((⟨some "abc".toList, false⟩ : RefsEnv).reqFail = false ∧
      getLatestCommitSha
        (⟨⟨none, false⟩, fun _ => .error (), fun _ => .error ()⟩ : TreeEnv).refs =
        none) ∧
    getLatestCommitSha ⟨some "abc".toList, false⟩ = some "abc".toList ∧
    getAllFiles ⟨⟨none, false⟩, fun _ => .error (), fun _ => .error ()⟩ = .ok [] :=
  ⟨⟨rfl, rfl⟩,
    (getLatestCommitSha_spec ⟨some "abc".toList, false⟩
      ⟨⟨none, false⟩, fun _ => .error (), fun _ => .error ()⟩).1 rfl,
    (getLatestCommitSha_spec ⟨some "abc".toList, false⟩
      ⟨⟨none, false⟩, fun _ => .error (), fun _ => .error ()⟩).2.2 rfl⟩

/-- C5, counterexample: `batchUpload` on an empty file list is not an
immediate true no-op — it first resolves the branch head and its base tree,
and when that tree lookup throws the call returns false even though the
file list is empty. -/
theorem batchUpload_empty_not_immediate :
    (batchUpload
      ⟨⟨some "c".toList, false⟩, fun _ => .error (), fun _ => .error (),
        fun _ _ => .error (), fun _ _ _ => .error (), true⟩
      [] "msg".toList).1 = false := rfl

/-- C5, amended: push on a vault with zero eligible files is a trivial
success — all counters zero, no batch-write call issued.  `batchUpload` on
an empty file list never issues a write call (no blob, tree, commit or ref
request), and returns true provided the initial head-commit and base-tree
lookups do not throw (no history at all also counts); a thrown base-tree
lookup instead makes it return false after those reads. -/
theorem empty_fileset_noop (st : EngineState) (s : Settings) (env : Env)
    (benv : BatchEnv) (msg : List Char)
    (h1 : st.configured = true) (h2 : st.isSyncing = false)
    (h3 : env.ensureRepo = true) (h4 : getVaultFiles s env.allFiles = []) :
    (push st s env).1 = ⟨true, "No files to push".toList, 0, 0, 0⟩ ∧
    (push st s env).2.2.batchCalls = 0 ∧
    (push st s env).2.2.uploadedPaths = [] ∧
    (batchUpload benv [] msg).2 = ⟨0, 0, 0, 0⟩ ∧
    (getLatestCommitSha benv.refs = none → (batchUpload benv [] msg).1 = true) ∧
    (∀ sha t, getLatestCommitSha benv.refs = some sha → benv.treeShaOf sha = .ok t →
      (batchUpload benv [] msg).1 = true) := by
  have hpush : push st s env = (⟨true, "No files to push".toList, 0, 0, 0⟩,
      { st with isSyncing := false }, ⟨1, 0, 0, [], []⟩) := by
    unfold push pushBody filesToUpload
    rw [h1, h2, h3, h4]
    simp
  refine ⟨by rw [hpush], by rw [hpush], by rw [hpush], ?_, ?_, ?_⟩
  · unfold batchUpload mkTreeItems
    cases hc : getLatestCommitSha benv.refs with
    | none => simp
    | some sha => cases ht : benv.treeShaOf sha <;> simp [ht]
  · intro hc
    unfold batchUpload mkTreeItems
    rw [hc]
    rfl
  · intro sha t hc ht
    unfold batchUpload mkTreeItems
    rw [hc]
    simp [ht]

theorem empty_fileset_noop_witness :
    ((⟨true, false⟩ : EngineState).configured = true ∧
      getVaultFiles ⟨[], [], [], []⟩ [] = [] ∧
      getLatestCommitSha (⟨⟨none, false⟩, fun _ => .ok [], fun _ => .ok [],
          fun _ _ => .ok [], fun _ _ _ => .ok [], true⟩ : BatchEnv).refs = none) ∧
    (push ⟨true, false⟩ ⟨[], [], [], []⟩
        ⟨true, [], fun _ => [], fun _ => [], .ok [], fun _ => none, true⟩).1 =
      ⟨true, "No files to push".toList, 0, 0, 0⟩ ∧
    (batchUpload ⟨⟨none, false⟩, fun _ => .ok [], fun _ => .ok [],
        fun _ _ => .ok [], fun _ _ _ => .ok [], true⟩ [] []).1 = true := by
  refine ⟨⟨rfl, rfl, rfl⟩, ?_, ?_⟩
  · exact (empty_fileset_noop ⟨true, false⟩ ⟨[], [], [], []⟩
      ⟨true, [], fun _ => [], fun _ => [], .ok [], fun _ => none, true⟩
      ⟨⟨none, false⟩, fun _ => .ok [], fun _ => .ok [],
        fun _ _ => .ok [], fun _ _ _ => .ok [], true⟩ []
      rfl rfl rfl rfl).1
  · exact (empty_fileset_noop ⟨true, false⟩ ⟨[], [], [], []⟩
      ⟨true, [], fun _ => [], fun _ => [], .ok [], fun _ => none, true⟩
      ⟨⟨none, false⟩, fun _ => .ok [], fun _ => .ok [],
        fun _ _ => .ok [], fun _ _ _ => .ok [], true⟩ []
      rfl rfl rfl rfl).2.2.2.2.1 rfl

/-- C7: in `batchUpload`, every file whose content length is below the fixed
100000-character inline threshold becomes a tree entry embedding the content
directly, and every file at or above the threshold first creates a blob and
is referenced in its tree entry by the blob id. -/
theorem inline_threshold (benv : BatchEnv) :
    ∀ (files : List (List Char × List Char)) (items : List GitHubTreeItem) (n : Nat),
      mkTreeItems benv files = (.ok items, n) →
      List.Forall₂ (fun fc it =>
        it.path = fc.1 ∧ it.mode = "100644".toList ∧
        (fc.2.length < 100000 → it.entry = .inline fc.2) ∧
        (¬ fc.2.length < 100000 →
          ∃ sha, benv.blobShaOf fc.2 = .ok sha ∧ it.entry = .blob sha)) files items := by
  intro files
  induction files with
  | nil =>
      intro items n hmk
      unfold mkTreeItems at hmk
      injection hmk with h1 h2
      injection h1 with h1
      subst h1
      exact List.Forall₂.nil
  | cons pc rest ih =>
      obtain ⟨p, c⟩ := pc
      intro items n hmk
      unfold mkTreeItems at hmk
      by_cases hc : c.length < 100000
      · rw [if_pos hc] at hmk
        cases hrec : (mkTreeItems benv rest).1 with
        | error u => rw [hrec] at hmk; simp [Except.map] at hmk
        | ok items' =>
            rw [hrec] at hmk
            simp only [Except.map, Prod.mk.injEq, Except.ok.injEq] at hmk
            obtain ⟨hitems, -⟩ := hmk
            subst hitems
            refine List.Forall₂.cons ⟨rfl, rfl, fun _ => rfl, fun h => absurd hc h⟩ ?_
            exact ih items' (mkTreeItems benv rest).2 (by rw [← hrec])
      · rw [if_neg hc] at hmk
        cases hblob : benv.blobShaOf c with
        | error u =>
            rw [hblob] at hmk
            simp at hmk
        | ok sha =>
            rw [hblob] at hmk
            cases hrec : (mkTreeItems benv rest).1 with
            | error u => rw [hrec] at hmk; simp [Except.map] at hmk
            | ok items' =>
                rw [hrec] at hmk
                simp only [Except.map, Prod.mk.injEq, Except.ok.injEq] at hmk
                obtain ⟨hitems, -⟩ := hmk
                subst hitems
                refine List.Forall₂.cons
                  ⟨rfl, rfl, fun h => absurd h hc, fun _ => ⟨sha, hblob, rfl⟩⟩ ?_
                exact ih items' (mkTreeItems benv rest).2 (by rw [← hrec])

theorem inline_threshold_witness :
    mkTreeItems
        (⟨⟨none, false⟩, fun _ => .ok [], fun _ => .ok "bsha".toList,
          fun _ _ => .ok [], fun _ _ _ => .ok [], true⟩ : BatchEnv)
        [("a.md".toList, "hi".toList)] =
      (.ok [⟨"a.md".toList, "100644".toList, .inline "hi".toList⟩], 0) ∧
    List.Forall₂ (fun fc (it : GitHubTreeItem) =>
        it.path = fc.1 ∧ it.mode = "100644".toList ∧
        (fc.2.length < 100000 → it.entry = .inline fc.2) ∧
        (¬ fc.2.length < 100000 →
          ∃ sha, (⟨⟨none, false⟩, fun _ => .ok [], fun _ => .ok "bsha".toList,
            fun _ _ => .ok [], fun _ _ _ => .ok [], true⟩ : BatchEnv).blobShaOf fc.2 =
              .ok sha ∧ it.entry = .blob sha))
      [("a.md".toList, "hi".toList)]
      [⟨"a.md".toList, "100644".toList, .inline "hi".toList⟩] :=
  ⟨rfl,
    inline_threshold
      ⟨⟨none, false⟩, fun _ => .ok [], fun _ => .ok "bsha".toList,
        fun _ _ => .ok [], fun _ _ _ => .ok [], true⟩
      [("a.md".toList, "hi".toList)]
      [⟨"a.md".toList, "100644".toList, .inline "hi".toList⟩] 0 rfl⟩

theorem keepFile_eq_true {s : Settings} {f : VFile} (h : keepFile s f = true) :
    excludedByFolder s f.path = false ∧ excludedByFile s f.name f.path = false := by
  unfold keepFile at h
  split at h
  · exact absurd h (by simp)
  · split at h
    · exact absurd h (by simp)
    · rename_i hfo hfi
      simp only [Bool.not_eq_true] at hfo hfi
      exact ⟨hfo, hfi⟩

theorem pullLoop_not_excluded (s : Settings) (env : Env) :
    ∀ (l : List RFile) (p : List Char), p ∈ pullLoop s env l →
      excludedByFolder s p = false ∧ excludedByFileSuffix s p = false := by
  intro l
  induction l with
  | nil => intro p h; simp [pullLoop] at h
  | cons rf rest ih =>
      intro p h
      unfold pullLoop at h
      split at h
      · exact ih p h
      · rename_i hcond
        simp only [Bool.or_eq_true, not_or, Bool.not_eq_true] at hcond
        cases hrc : env.remoteContent rf.path with
        | some c =>
            rw [hrc] at h
            rcases List.mem_cons.mp h with rfl | hmem
            · exact hcond
            · exact ih p hmem
        | none =>
            rw [hrc] at h
            exact ih p h

theorem syncLoop_not_excluded (s : Settings) (env : Env) (vps : List (List Char)) :
    ∀ (l : List (List Char)) (p : List Char), p ∈ syncLoop s env vps l →
      excludedByFolder s p = false := by
  intro l
  induction l with
  | nil => intro p h; simp [syncLoop] at h
  | cons q rest ih =>
      intro p h
      unfold syncLoop at h
      split at h
      · exact ih p h
      · rename_i hcond
        simp only [Bool.not_eq_true] at hcond
        split at h
        · exact ih p h
        · cases hrc : env.remoteContent q with
          | some c =>
              rw [hrc] at h
              rcases List.mem_cons.mp h with rfl | hmem
              · exact hcond
              · exact ih p hmem
          | none =>
              rw [hrc] at h
              exact ih p h

theorem push_uploadedPaths_shape (st : EngineState) (s : Settings) (env : Env) :
    (push st s env).2.2.uploadedPaths = [] ∨
    (push st s env).2.2.uploadedPaths =
      (getVaultFiles s env.allFiles).map (fun f => f.path) := by
  unfold push pushBody
  repeat' split
  all_goals first
    | (left; rfl)
    | (right; unfold filesToUpload; simp [List.map_map, Function.comp])

theorem pull_downloadedPaths_shape (st : EngineState) (s : Settings) (env : Env) :
    (pull st s env).2.2.downloadedPaths = [] ∨
    ∃ rl, (pull st s env).2.2.downloadedPaths = pullLoop s env rl := by
  unfold pull pullBody
  repeat' split
  all_goals first
    | (left; rfl)
    | (right; exact ⟨_, rfl⟩)

theorem sync_downloadedPaths_shape (st : EngineState) (s : Settings) (env : Env) :
    (sync st s env).2.2.downloadedPaths = [] ∨
    ∃ vps l, (sync st s env).2.2.downloadedPaths = syncLoop s env vps l := by
  unfold sync syncBody
  repeat' split
  all_goals first
    | (left; rfl)
    | (right; exact ⟨_, _, rfl⟩)

theorem sync_uploadedPaths_shape (st : EngineState) (s : Settings) (env : Env) :
    (sync st s env).2.2.uploadedPaths = [] ∨
    (sync st s env).2.2.uploadedPaths =
      (getVaultFiles s env.allFiles).map (fun f => f.path) := by
  unfold sync syncBody
  repeat' split
  all_goals first
    | (left; rfl)
    | (right; unfold filesToUpload; simp [List.map_map, Function.comp])

/-- C1, amended: paths excluded by a folder-prefix rule never appear in the
upload set of push or sync, in the download set of pull, or in the download
set of sync; paths excluded by a filename/suffix rule never appear in the
upload sets or in pull's download set — but sync's download loop applies
only the folder rules, so a remote-only path matching a filename/suffix rule
can still appear in sync's download set. -/
theorem exclusion_filters_amended (st : EngineState) (s : Settings) (env : Env)
    (p : List Char) :
    (p ∈ (push st s env).2.2.uploadedPaths →
      ∃ f, f ∈ env.allFiles ∧ f.path = p ∧ excludedByFolder s p = false ∧
        excludedByFile s f.name p = false) ∧
    (p ∈ (pull st s env).2.2.downloadedPaths →
      excludedByFolder s p = false ∧ excludedByFileSuffix s p = false) ∧
    (p ∈ (sync st s env).2.2.downloadedPaths → excludedByFolder s p = false) ∧
    (p ∈ (sync st s env).2.2.uploadedPaths →
      ∃ f, f ∈ env.allFiles ∧ f.path = p ∧ excludedByFolder s p = false ∧
        excludedByFile s f.name p = false) := by
  refine ⟨?_, ?_, ?_, ?_⟩
  · intro hmem
    rcases push_uploadedPaths_shape st s env with hsh | hsh
    · rw [hsh] at hmem; simp at hmem
    · rw [hsh] at hmem
      obtain ⟨f, hf, rfl⟩ := List.mem_map.mp hmem
      obtain ⟨hall, hkeep⟩ := List.mem_filter.mp hf
      obtain ⟨h1, h2⟩ := keepFile_eq_true hkeep
      exact ⟨f, hall, rfl, h1, h2⟩
  · intro hmem
    rcases pull_downloadedPaths_shape st s env with hsh | ⟨rl, hsh⟩
    · rw [hsh] at hmem; simp at hmem
    · rw [hsh] at hmem
      exact pullLoop_not_excluded s env rl p hmem
  · intro hmem
    rcases sync_downloadedPaths_shape st s env with hsh | ⟨vps, l, hsh⟩
    · rw [hsh] at hmem; simp at hmem
    · rw [hsh] at hmem
      exact syncLoop_not_excluded s env vps l p hmem
  · intro hmem
    rcases sync_uploadedPaths_shape st s env with hsh | hsh
    · rw [hsh] at hmem; simp at hmem
    · rw [hsh] at hmem
      obtain ⟨f, hf, rfl⟩ := List.mem_map.mp hmem
      obtain ⟨hall, hkeep⟩ := List.mem_filter.mp hf
      obtain ⟨h1, h2⟩ := keepFile_eq_true hkeep
      exact ⟨f, hall, rfl, h1, h2⟩

theorem exclusion_filters_amended_witness :
    "notes/a.md".toList ∈
      (pull ⟨true, false⟩ ⟨[], [".DS_Store".toList], [], []⟩
        ⟨true, [], fun _ => [], fun _ => [],
          .ok [⟨"notes/a.md".toList, "s".toList⟩], fun _ => some "x".toList,
          true⟩).2.2.downloadedPaths ∧
    excludedByFolder ⟨[], [".DS_Store".toList], [], []⟩ "notes/a.md".toList = false ∧
    excludedByFileSuffix ⟨[], [".DS_Store".toList], [], []⟩ "notes/a.md".toList =
      false :=
  ⟨by decide,
    (exclusion_filters_amended ⟨true, false⟩ ⟨[], [".DS_Store".toList], [], []⟩
      ⟨true, [], fun _ => [], fun _ => [],
        .ok [⟨"notes/a.md".toList, "s".toList⟩], fun _ => some "x".toList, true⟩
      "notes/a.md".toList).2.1 (by decide)⟩

/-- C1, counterexample: with the filename rule excluding `.DS_Store` paths
and an otherwise empty vault, `sync` downloads the remote path
`a/.DS_Store` even though that path is excluded by the filename/suffix
rule — sync's download set is not filtered by the filename rules. -/
theorem exclusion_sync_download_violation :
    excludedByFileSuffix ⟨[], [".DS_Store".toList], [], []⟩ "a/.DS_Store".toList =
      true ∧
    "a/.DS_Store".toList ∈
      (sync ⟨true, false⟩ ⟨[], [".DS_Store".toList], [], []⟩
        ⟨true, [], fun _ => [], fun _ => [],
          .ok [⟨"a/.DS_Store".toList, "s".toList⟩], fun _ => some "x".toList,
          true⟩).2.2.downloadedPaths := by
  exact ⟨by decide, by decide⟩

/-- C4, counterexample: the JS `replace` used by `getCommitMessage`
substitutes only the first occurrence of the date token, so a template
containing the token twice renders to a message that still contains the
literal token text. -/
theorem template_substitution_violation :
    containsSub ((⟨[], [], dateTok ++ dateTok, []⟩ : Settings).commitMessage) dateTok =
      true ∧
    containsSub (getCommitMessage ⟨[], [], dateTok ++ dateTok, []⟩
      "2025-01-01 00:00:00".toList) dateTok = true :=
  ⟨by decide, by decide⟩

/-- C4, amended: for every commit-message template containing the date token
exactly once, the rendered commit message contains the formatted timestamp
as a substring and contains no literal occurrence of the token text (the
timestamp characters — digits, dashes, colons and a space — are disjoint
from the token characters); with several token occurrences only the first is
substituted. -/
theorem template_substitution_amended (s : Settings) (dateStr : List Char)
    (h1 : countOcc s.commitMessage dateTok = 1)
    (hd : dateStr ≠ [])
    (hdisj : ∀ c ∈ dateStr, c ∉ dateTok) :
    containsSub (getCommitMessage s dateStr) dateStr = true ∧
    containsSub (getCommitMessage s dateStr) dateTok = false := by
  have hocc : ∃ i, OccursAt s.commitMessage dateTok i :=
    exists_occursAt_of_countOcc_pos (by omega)
  obtain ⟨pre, suf, heq, hrw⟩ :=
    @replaceFirst_split dateTok dateStr s.commitMessage hocc
  have htokne : dateTok ≠ [] := by decide
  have htoklen : 0 < dateTok.length := by decide
  have hdne : dateStr.length ≠ 0 := fun hz => hd (List.length_eq_zero.mp hz)
  have hocc0 : OccursAt s.commitMessage dateTok pre.length := by
    have h0 : OccursAt (dateTok ++ suf) dateTok 0 :=
      ⟨by simp, by rw [List.drop_zero, List.take_left]⟩
    have hsh := @occursAt_append_right pre _ _ _ h0
    rw [Nat.add_zero] at hsh
    rw [← List.append_assoc] at hsh
    rw [heq]
    exact hsh
  unfold getCommitMessage
  rw [hrw]
  constructor
  · apply containsSub_iff.mpr
    refine ⟨pre.length, ?_⟩
    have h0 : OccursAt (dateStr ++ suf) dateStr 0 :=
      ⟨by simp, by rw [List.drop_zero, List.take_left]⟩
    have hsh := @occursAt_append_right pre _ _ _ h0
    rw [Nat.add_zero] at hsh
    rw [← List.append_assoc] at hsh
    exact hsh
  · rw [← Bool.not_eq_true]
    intro hcon
    obtain ⟨i, hi⟩ := containsSub_iff.mp hcon
    rcases occursAt_span htokne hd hdisj pre suf i hi with hle | hge
    · have hpre : OccursAt pre dateTok i := by
        rw [List.append_assoc] at hi
        exact occursAt_of_append_left hi hle
      have htm : OccursAt s.commitMessage dateTok i := by
        rw [heq, List.append_assoc]
        exact occursAt_append_left hpre
      have hne : i ≠ pre.length := by omega
      have h2 := one_lt_countOcc htm hocc0 hne
      omega
    · have hidx : i = (pre ++ dateStr).length + (i - (pre ++ dateStr).length) := by
        simp only [List.length_append]
        omega
      have hsuf : OccursAt suf dateTok (i - (pre ++ dateStr).length) := by
        apply @occursAt_of_append_right (pre ++ dateStr) suf dateTok
        rw [← hidx]
        exact hi
      have htm : OccursAt s.commitMessage dateTok
          ((pre ++ dateTok).length + (i - (pre ++ dateStr).length)) := by
        rw [heq]
        exact occursAt_append_right hsuf
      have hne : (pre ++ dateTok).length + (i - (pre ++ dateStr).length) ≠ pre.length := by
        simp only [List.length_append]
        omega
      have h2 := one_lt_countOcc htm hocc0 hne
      omega

theorem template_substitution_amended_witness :
    (countOcc ((⟨[], [], "sync: ".toList ++ dateTok, []⟩ : Settings).commitMessage)
        dateTok = 1 ∧
      "2025-10-12 08:00:00".toList ≠ ([] : List Char) ∧
      ∀ c ∈ "2025-10-12 08:00:00".toList, c ∉ dateTok) ∧
    containsSub (getCommitMessage ⟨[], [], "sync: ".toList ++ dateTok, []⟩
        "2025-10-12 08:00:00".toList) "2025-10-12 08:00:00".toList = true ∧
    containsSub (getCommitMessage ⟨[], [], "sync: ".toList ++ dateTok, []⟩
        "2025-10-12 08:00:00".toList) dateTok = false :=
  ⟨⟨by decide, by decide, by decide⟩,
    template_substitution_amended ⟨[], [], "sync: ".toList ++ dateTok, []⟩
      "2025-10-12 08:00:00".toList (by decide) (by decide) (by decide)⟩

end GitSync
